import Mathlib

/-!
Verification of the password/passphrase generation engine
(core modules: random, charsets, validation, password, passphrase).

The TypeScript source is embedded shallowly:
* a `RngBytes` random source is modelled as a byte stream `s : Nat → Nat`
  together with a read position; a read of the i-th byte yields `s i % 256`
  (a `Uint8Array` cell always holds a value in [0, 256));
* the rejection-sampling `do … while` loops are modelled with explicit fuel,
  returning `none`/`outOfFuel` when the fuel is exhausted (the source loops
  forever in that case, which no terminating theorem talks about);
* TypeScript numbers appearing in configuration fields are modelled as `ℚ`
  (they are compared, rounded and clamped but never divided);
* `Math.ceil(Math.log2 n)` in the multi-byte sampler is modelled exactly as
  `Nat.clog 2 n` (for every alphabet or word-list size this program can
  produce, the floating-point computation agrees with the exact one).
-/

namespace PwGen

/-- Read the i-th byte of the stream; a Uint8Array cell is always < 256. -/
def byteAt (s : Nat → Nat) (i : Nat) : Nat := s i % 256

/-- Combine `k` bytes starting at `pos` big-endian, as in the
`value = value * 256 + bytes[i]` loop of `uniformRandomIndex`. -/
def combineBE (s : Nat → Nat) (pos k : Nat) : Nat :=
  (List.range k).foldl (fun v i => v * 256 + byteAt s (pos + i)) 0

/-- Result of one call to `uniformRandomIndex`: the chosen index and the new
stream position, or the error/non-termination outcomes. -/
inductive SampleResult where
  | ok (idx : Nat) (pos : Nat)
  | invalidArg
  | outOfFuel
  deriving DecidableEq, Repr

/-- The `do { draw k bytes } while (value >= limit)` rejection loop of
`uniformRandomIndex`, with explicit fuel counting the number of draws. -/
def rejectLoop (s : Nat → Nat) (k limit : Nat) : Nat → Nat → Option (Nat × Nat)
  | 0, _ => none
  | fuel + 1, pos =>
    if combineBE s pos k < limit then some (combineBE s pos k, pos + k)
    else rejectLoop s k limit fuel (pos + k)

/-- `bytesNeeded = Math.ceil(Math.ceil(Math.log2 n) / 8)` of the source,
with `Math.log2` modelled exactly (`Nat.clog 2`). -/
def bytesNeededFor (n : Nat) : Nat := (Nat.clog 2 n + 7) / 8

/-- Shallow embedding of `uniformRandomIndex` (src/core/random.ts).
`n = 0` models the thrown `'n must be positive'` error (negative numbers are
not representable as sizes here). -/
def uniformRandomIndex (s : Nat → Nat) (fuel pos n : Nat) : SampleResult :=
  if n = 0 then .invalidArg
  else if n = 1 then .ok 0 pos
  else if n ≤ 256 then
    if 256 % n = 0 then .ok (byteAt s pos % n) (pos + 1)
    else
      match rejectLoop s 1 (256 / n * n) fuel pos with
      | some (v, p) => .ok (v % n) p
      | none => .outOfFuel
  else
    match rejectLoop s (bytesNeededFor n) (256 ^ bytesNeededFor n / n * n) fuel pos with
    | some (v, p) => .ok (v % n) p
    | none => .outOfFuel

/-- Number of byte values in [0,256) that one single-byte sampling attempt for
alphabet size `n` accepts and maps to index `i`. -/
def acceptedByteCount (n i : Nat) : Nat :=
  (List.range 256).countP fun b => decide (b < 256 / n * n ∧ b % n = i)

theorem byteAt_lt (s : Nat → Nat) (i : Nat) : byteAt s i < 256 :=
  Nat.mod_lt _ (by omega)

theorem combineBE_one (s : Nat → Nat) (pos : Nat) :
    combineBE s pos 1 = byteAt s pos := by
  simp [combineBE, List.range_succ]

theorem combineBE_succ (s : Nat → Nat) (pos k : Nat) :
    combineBE s pos (k + 1) = combineBE s pos k * 256 + byteAt s (pos + k) := by
  simp [combineBE, List.range_succ]

theorem combineBE_lt (s : Nat → Nat) (pos k : Nat) :
    combineBE s pos k < 256 ^ k := by
  induction k with
  | zero => simp [combineBE]
  | succ k ih =>
    rw [combineBE_succ, pow_succ]
    have := byteAt_lt s (pos + k)
    omega

/-- Characterization of a successful rejection loop: there is a first
accepted block, every earlier block was rejected, and the stream position
advances by `k` bytes per attempt. -/
theorem rejectLoop_some (s : Nat → Nat) (k limit : Nat) :
    ∀ fuel pos v p, rejectLoop s k limit fuel pos = some (v, p) →
      ∃ j, j < fuel ∧ p = pos + k * (j + 1) ∧
        (∀ m, m < j → limit ≤ combineBE s (pos + k * m) k) ∧
        combineBE s (pos + k * j) k < limit ∧ v = combineBE s (pos + k * j) k := by
  intro fuel
  induction fuel with
  | zero => intro pos v p h; simp [rejectLoop] at h
  | succ fuel ih =>
    intro pos v p h
    rw [rejectLoop] at h
    by_cases hacc : combineBE s pos k < limit
    · rw [if_pos hacc] at h
      simp only [Option.some.injEq, Prod.mk.injEq] at h
      obtain ⟨hv, hp⟩ := h
      refine ⟨0, by omega, by omega, fun m hm => absurd hm (by omega), ?_, ?_⟩
      · simpa using hacc
      · simpa using hv.symm
    · rw [if_neg hacc] at h
      obtain ⟨j, hj, hp, hrej, hval, hv⟩ := ih (pos + k) v p h
      refine ⟨j + 1, by omega, by rw [hp]; ring, ?_, ?_, ?_⟩
      · intro m hm
        cases m with
        | zero => simpa using not_lt.mp hacc
        | succ m =>
          have := hrej m (by omega)
          have harith : pos + k + k * m = pos + k * (m + 1) := by ring
          rwa [harith] at this
      · have harith : pos + k + k * j = pos + k * (j + 1) := by ring
        rwa [harith] at hval
      · have harith : pos + k + k * j = pos + k * (j + 1) := by ring
        rwa [harith] at hv

theorem rejectLoop_some_lt (s : Nat → Nat) (k limit fuel pos v p : Nat)
    (h : rejectLoop s k limit fuel pos = some (v, p)) : v < limit := by
  obtain ⟨j, _, _, _, hval, hv⟩ := rejectLoop_some s k limit fuel pos v p h
  omega

/-- A successful sample is always an index in [0, n). -/
theorem uniformRandomIndex_lt (s : Nat → Nat) (fuel pos n idx p : Nat)
    (hn : 0 < n) (h : uniformRandomIndex s fuel pos n = .ok idx p) : idx < n := by
  unfold uniformRandomIndex at h
  split at h
  · exact absurd h (by simp)
  · split at h
    · simp only [SampleResult.ok.injEq] at h
      omega
    · split at h
      · split at h
        · simp only [SampleResult.ok.injEq] at h
          obtain ⟨h1, _⟩ := h
          have := Nat.mod_lt (byteAt s pos) hn
          omega
        · split at h
          · rename_i v p' heq
            simp only [SampleResult.ok.injEq] at h
            obtain ⟨h1, _⟩ := h
            have := Nat.mod_lt v hn
            omega
          · exact absurd h (by simp)
      · split at h
        · rename_i v p' heq
          simp only [SampleResult.ok.injEq] at h
          obtain ⟨h1, _⟩ := h
          have := Nat.mod_lt v hn
          omega
        · exact absurd h (by simp)

theorem countP_range_eq (n i : Nat) :
    ((List.range n).countP fun b => decide (b = i)) = if i < n then 1 else 0 := by
  induction n with
  | zero => simp
  | succ n ih =>
    rw [List.range_succ, List.countP_append, ih]
    have hsingle : (([n] : List Nat).countP fun b => decide (b = i)) =
        if n = i then 1 else 0 := by
      simp [List.countP_cons]
    rw [hsingle]
    by_cases h : i < n
    · have h3 : i < n + 1 := by omega
      have h2 : n ≠ i := by omega
      simp [h, h2, h3]
    · by_cases h2 : n = i
      · have h3 : i < n + 1 := by omega
        simp [h, h2, h3]
      · have h3 : ¬ i < n + 1 := by omega
        simp [h, h2, h3]

theorem countP_range_mul_mod (n i : Nat) (hn : 0 < n) (hi : i < n) :
    ∀ q, ((List.range (q * n)).countP fun b => decide (b % n = i)) = q := by
  intro q
  induction q with
  | zero => simp
  | succ q ih =>
    rw [Nat.succ_mul, List.range_add, List.countP_append, ih, List.countP_map]
    have hcong : ((List.range n).countP
        ((fun b => decide (b % n = i)) ∘ fun x => q * n + x)) =
        ((List.range n).countP fun b => decide (b = i)) := by
      apply List.countP_congr
      intro r hr
      have hrn : r < n := List.mem_range.mp hr
      have hmod : (q * n + r) % n = r := by
        rw [Nat.add_comm, Nat.mul_comm q n, Nat.add_mul_mod_self_left,
          Nat.mod_eq_of_lt hrn]
      simp [Function.comp, hmod]
    rw [hcong, countP_range_eq]
    simp [hi]

theorem countP_range_below (n i : Nat) :
    ∀ N L : Nat, L ≤ N →
      ((List.range N).countP fun b => decide (b < L ∧ b % n = i)) =
      ((List.range L).countP fun b => decide (b % n = i)) := by
  intro N L hLN
  obtain ⟨M, rfl⟩ : ∃ M, N = L + M := ⟨N - L, by omega⟩
  rw [List.range_add, List.countP_append, List.countP_map]
  have h2 : ((List.range M).countP
      ((fun b => decide (b < L ∧ b % n = i)) ∘ fun x => L + x)) = 0 := by
    apply List.countP_eq_zero.mpr
    intro x _
    simp [Function.comp]
  have h1 : ((List.range L).countP fun b => decide (b < L ∧ b % n = i)) =
      ((List.range L).countP fun b => decide (b % n = i)) := by
    apply List.countP_congr
    intro b hb
    have := List.mem_range.mp hb
    simp [this]
  rw [h1, h2, Nat.add_zero]

/-- Counting property: among the 256 possible byte values, exactly
`256 / n` are accepted by one single-byte sampling attempt and map to
each given index `i < n`. -/
theorem acceptedByteCount_eq (n i : Nat) (hn : 0 < n) (h256 : n ≤ 256)
    (hi : i < n) : acceptedByteCount n i = 256 / n := by
  unfold acceptedByteCount
  rw [countP_range_below n i 256 (256 / n * n) (Nat.div_mul_le_self 256 n)]
  exact countP_range_mul_mod n i hn hi (256 / n)

theorem combineBE_congr (s1 s2 : Nat → Nat) (pos k : Nat)
    (h : ∀ m, m < k → s1 (pos + m) = s2 (pos + m)) :
    combineBE s1 pos k = combineBE s2 pos k := by
  induction k with
  | zero => simp [combineBE]
  | succ k ih =>
    rw [combineBE_succ, combineBE_succ, ih (fun m hm => h m (by omega)),
      byteAt, byteAt, h k (by omega)]

/-- The big-endian byte expansion of `v` over `k` bytes. -/
def beDigits (v k : Nat) : Nat → Nat := fun m => v / 256 ^ (k - 1 - m) % 256

theorem combineBE_beDigits : ∀ k v, v < 256 ^ k →
    combineBE (beDigits v k) 0 k = v := by
  intro k
  induction k with
  | zero =>
    intro v hv
    simp [combineBE]
    omega
  | succ k ih =>
    intro v hv
    rw [combineBE_succ]
    have h1 : byteAt (beDigits v (k + 1)) (0 + k) = v % 256 := by
      simp [byteAt, beDigits, Nat.mod_mod_of_dvd]
    have hdiv : v / 256 < 256 ^ k := by
      rw [Nat.div_lt_iff_lt_mul (by omega : 0 < 256)]
      have : 256 ^ k * 256 = 256 ^ (k + 1) := by ring
      omega
    have h2 : combineBE (beDigits v (k + 1)) 0 k = v / 256 := by
      have hcong : combineBE (beDigits v (k + 1)) 0 k =
          combineBE (beDigits (v / 256) k) 0 k := by
        apply combineBE_congr
        intro m hm
        simp only [beDigits, Nat.zero_add]
        have he : k + 1 - 1 - m = (k - 1 - m) + 1 := by omega
        rw [he, pow_succ, Nat.div_div_eq_div_mul, Nat.mul_comm (256 ^ (k - 1 - m)) 256]
      rw [hcong, ih (v / 256) hdiv]
    rw [h1, h2]
    have := Nat.div_add_mod v 256
    omega

/-- C1: for every alphabet size n in [2,256] and every random source,
`uniformRandomIndex` returns an index in [0,n); when 256 mod n = 0 it
returns the first drawn byte mod n; otherwise it rejects every byte
≥ ⌊256/n⌋·n and returns the first accepted byte mod n; and each of the
indices 0..n-1 is hit by exactly ⌊256/n⌋ of the 256 possible byte values
among the accepted bytes. -/
theorem C1_uniformRandomIndex_small_unbiased (s : Nat → Nat) (fuel pos n : Nat)
    (h2 : 2 ≤ n) (h256 : n ≤ 256) :
    (∀ idx p, uniformRandomIndex s fuel pos n = .ok idx p → idx < n) ∧
    (256 % n = 0 →
      uniformRandomIndex s fuel pos n = .ok (byteAt s pos % n) (pos + 1)) ∧
    (256 % n ≠ 0 → ∀ idx p, uniformRandomIndex s fuel pos n = .ok idx p →
      ∃ j, j < fuel ∧ p = pos + j + 1 ∧
        (∀ m, m < j → 256 / n * n ≤ byteAt s (pos + m)) ∧
        byteAt s (pos + j) < 256 / n * n ∧ idx = byteAt s (pos + j) % n) ∧
    (∀ i, i < n → acceptedByteCount n i = 256 / n) := by
  refine ⟨fun idx p h => uniformRandomIndex_lt s fuel pos n idx p (by omega) h,
    ?_, ?_, fun i hi => acceptedByteCount_eq n i (by omega) h256 hi⟩
  · intro hdvd
    unfold uniformRandomIndex
    rw [if_neg (by omega : ¬ n = 0), if_neg (by omega : ¬ n = 1),
      if_pos h256, if_pos hdvd]
  · intro hndvd idx p h
    unfold uniformRandomIndex at h
    rw [if_neg (by omega : ¬ n = 0), if_neg (by omega : ¬ n = 1),
      if_pos h256, if_neg hndvd] at h
    cases heq : rejectLoop s 1 (256 / n * n) fuel pos with
    | none => rw [heq] at h; exact absurd h (by simp)
    | some vp =>
      obtain ⟨v, p'⟩ := vp
      rw [heq] at h
      simp only [SampleResult.ok.injEq] at h
      obtain ⟨hidx, hp⟩ := h
      obtain ⟨j, hj, hpp, hrej, hacc, hv⟩ :=
        rejectLoop_some s 1 (256 / n * n) fuel pos v p' heq
      refine ⟨j, hj, by omega, ?_, ?_, ?_⟩
      · intro m hm
        have := hrej m hm
        rwa [one_mul, combineBE_one] at this
      · have := hacc
        rwa [one_mul, combineBE_one] at this
      · rw [← hidx, hv, one_mul, combineBE_one]

theorem C1_uniformRandomIndex_small_unbiased_witness :
    2 ≤ 4 ∧ 4 ≤ 256 ∧
    uniformRandomIndex (fun _ => 10) 2 0 4 = .ok 2 1 :=
  ⟨by decide, by decide,
    (C1_uniformRandomIndex_small_unbiased (fun _ => 10) 2 0 4
      (by decide) (by decide)).2.1 (by decide)⟩

/-- C7: for every n > 256, each sampling attempt of `uniformRandomIndex`
requests exactly `bytesNeededFor n` bytes, which is the least k with
256^k ≥ n; it combines them big-endian, rejects a block whose value is
≥ ⌊256^k/n⌋·n, returns the first accepted value mod n, the returned index
is in [0,n), and every index in [0,n) is reachable. -/
theorem C7_uniformRandomIndex_large (s : Nat → Nat) (fuel pos n : Nat)
    (hn : 256 < n) :
    (n ≤ 256 ^ bytesNeededFor n ∧ ∀ k, n ≤ 256 ^ k → bytesNeededFor n ≤ k) ∧
    (∀ idx p, uniformRandomIndex s fuel pos n = .ok idx p → idx < n) ∧
    (∀ idx p, uniformRandomIndex s fuel pos n = .ok idx p →
      ∃ j, j < fuel ∧ p = pos + bytesNeededFor n * (j + 1) ∧
        (∀ m, m < j → 256 ^ bytesNeededFor n / n * n ≤
          combineBE s (pos + bytesNeededFor n * m) (bytesNeededFor n)) ∧
        combineBE s (pos + bytesNeededFor n * j) (bytesNeededFor n) <
          256 ^ bytesNeededFor n / n * n ∧
        idx = combineBE s (pos + bytesNeededFor n * j) (bytesNeededFor n) % n) ∧
    (∀ i, i < n →
      ∃ s' : Nat → Nat, uniformRandomIndex s' 1 0 n = .ok i (bytesNeededFor n)) := by
  have hpow : ∀ k : Nat, (256 : Nat) ^ k = 2 ^ (8 * k) := by
    intro k
    rw [pow_mul]
    norm_num
  have hminiff : ∀ k : Nat, n ≤ 256 ^ k ↔ bytesNeededFor n ≤ k := by
    intro k
    rw [hpow, Nat.le_pow_iff_clog_le (by omega : 1 < 2)]
    unfold bytesNeededFor
    constructor
    · intro hle
      have : (Nat.clog 2 n + 7) / 8 < k + 1 := by
        rw [Nat.div_lt_iff_lt_mul (by omega : 0 < 8)]
        omega
      omega
    · intro hle
      have h8 : 8 * ((Nat.clog 2 n + 7) / 8) + (Nat.clog 2 n + 7) % 8 =
          Nat.clog 2 n + 7 := Nat.div_add_mod _ 8
      have hm : (Nat.clog 2 n + 7) % 8 < 8 := Nat.mod_lt _ (by omega)
      omega
  have hmin : n ≤ 256 ^ bytesNeededFor n := (hminiff (bytesNeededFor n)).mpr le_rfl
  refine ⟨⟨hmin, fun k hk => (hminiff k).mp hk⟩,
    fun idx p h => uniformRandomIndex_lt s fuel pos n idx p (by omega) h, ?_, ?_⟩
  · intro idx p h
    unfold uniformRandomIndex at h
    rw [if_neg (by omega : ¬ n = 0), if_neg (by omega : ¬ n = 1),
      if_neg (by omega : ¬ n ≤ 256)] at h
    cases heq : rejectLoop s (bytesNeededFor n) (256 ^ bytesNeededFor n / n * n)
        fuel pos with
    | none => rw [heq] at h; exact absurd h (by simp)
    | some vp =>
      obtain ⟨v, p'⟩ := vp
      rw [heq] at h
      simp only [SampleResult.ok.injEq] at h
      obtain ⟨hidx, hp⟩ := h
      obtain ⟨j, hj, hpp, hrej, hacc, hv⟩ :=
        rejectLoop_some s (bytesNeededFor n) (256 ^ bytesNeededFor n / n * n)
          fuel pos v p' heq
      exact ⟨j, hj, by omega, hrej, hacc, by rw [← hidx, hv]⟩
  · intro i hi
    refine ⟨beDigits i (bytesNeededFor n), ?_⟩
    have hcomb : combineBE (beDigits i (bytesNeededFor n)) 0 (bytesNeededFor n) = i :=
      combineBE_beDigits (bytesNeededFor n) i (by omega)
    have hlim : n ≤ 256 ^ bytesNeededFor n / n * n := by
      have h1 : 1 ≤ 256 ^ bytesNeededFor n / n := by
        rw [Nat.le_div_iff_mul_le (by omega : 0 < n)]
        omega
      calc n = 1 * n := by ring
      _ ≤ 256 ^ bytesNeededFor n / n * n := by
        exact Nat.mul_le_mul_right n h1
    unfold uniformRandomIndex
    rw [if_neg (by omega : ¬ n = 0), if_neg (by omega : ¬ n = 1),
      if_neg (by omega : ¬ n ≤ 256)]
    rw [rejectLoop, if_pos (by rw [hcomb]; omega)]
    rw [hcomb]
    simp [Nat.mod_eq_of_lt hi]

theorem C7_uniformRandomIndex_large_witness :
    256 < 2000 ∧ 2000 ≤ 256 ^ bytesNeededFor 2000 :=
  ⟨by decide,
    (C7_uniformRandomIndex_large (fun _ => 0) 1 0 2000 (by decide)).1.1⟩

/-! ## Character sets (src/core/charsets.ts, src/core/constants.ts) -/

def LOWER : List Char := "abcdefghijklmnopqrstuvwxyz".toList

def UPPER : List Char := "ABCDEFGHIJKLMNOPQRSTUVWXYZ".toList

def DIGIT : List Char := "0123456789".toList

def SYMBOL : List Char := "!@#$%^&*()-_=+[]\x7b\x7d;:,.?".toList

def AMBIGUOUS_CHARS : List Char := "Il1O0|".toList

/-- The class toggles (`CharacterClassOptions` in src/core/types.ts). -/
structure CharacterClassOptions where
  lowercase : Bool
  uppercase : Bool
  digits : Bool
  symbols : Bool
  deriving DecidableEq, Repr

/-- Shallow embedding of `buildCharset`: concatenate the enabled class sets
in the fixed order, then (if excludeAmbiguous) filter out the ambiguous
characters, where `|` counts as ambiguous only when symbols are enabled. -/
def buildCharset (inc : CharacterClassOptions) (excludeAmbiguous : Bool) :
    List Char :=
  let charset :=
    (if inc.lowercase then LOWER else []) ++
    (if inc.uppercase then UPPER else []) ++
    (if inc.digits then DIGIT else []) ++
    (if inc.symbols then SYMBOL else [])
  if excludeAmbiguous then
    let ambiguousSet :=
      if inc.symbols then AMBIGUOUS_CHARS else AMBIGUOUS_CHARS.erase '|'
    charset.filter (fun c => ¬ ambiguousSet.contains c)
  else charset

/-- `set.replace(/[Il1O0]/g, '')` of `getClassCharsets`. -/
def stripAmbiguous (l : List Char) : List Char :=
  l.filter (fun c => ¬ c ∈ ['I', 'l', '1', 'O', '0'])

/-- `set.replace(/[Il1O0|]/g, '')` of the symbols branch of
`getClassCharsets`. -/
def stripAmbiguousPipe (l : List Char) : List Char :=
  l.filter (fun c => ¬ c ∈ ['I', 'l', '1', 'O', '0', '|'])

/-- Shallow embedding of `getClassCharsets`: the per-class alphabets of the
enabled classes, each filtered independently, omitting any that comes out
empty. -/
def getClassCharsets (inc : CharacterClassOptions) (excludeAmbiguous : Bool) :
    List (List Char) :=
  (if inc.lowercase then
    (fun set => if set.length > 0 then [set] else [])
      (if excludeAmbiguous then stripAmbiguous LOWER else LOWER)
  else []) ++
  (if inc.uppercase then
    (fun set => if set.length > 0 then [set] else [])
      (if excludeAmbiguous then stripAmbiguous UPPER else UPPER)
  else []) ++
  (if inc.digits then
    (fun set => if set.length > 0 then [set] else [])
      (if excludeAmbiguous then stripAmbiguous DIGIT else DIGIT)
  else []) ++
  (if inc.symbols then
    (fun set => if set.length > 0 then [set] else [])
      (if excludeAmbiguous then stripAmbiguousPipe SYMBOL else SYMBOL)
  else [])

/-! ## Password options and normalization (src/core/types.ts,
src/core/validation.ts) -/

/-- A partially specified `include` object: each toggle may be absent. -/
structure PartialCharacterClassOptions where
  lowercase : Option Bool
  uppercase : Option Bool
  digits : Option Bool
  symbols : Option Bool
  deriving DecidableEq, Repr

/-- `Partial<PasswordOptions>`: every field may be absent; the numeric
`length` is a ℚ to cover non-integer inputs. -/
structure PartialPasswordOptions where
  length : Option ℚ
  include' : Option PartialCharacterClassOptions
  excludeAmbiguous : Option Bool
  requireEachClass : Option Bool
  deriving DecidableEq, Repr

/-- `NormalizedPasswordOptions`: all fields resolved. -/
structure NormalizedPasswordOptions where
  length : Nat
  include' : CharacterClassOptions
  excludeAmbiguous : Bool
  requireEachClass : Bool
  deriving DecidableEq, Repr

/-- JavaScript `Math.round`: half-way cases round toward +∞. -/
def jsRound (q : ℚ) : ℤ := ⌊q + 1 / 2⌋

def PASSWORD_LENGTH_MIN : Nat := 8
def PASSWORD_LENGTH_MAX : Nat := 128
def DEFAULT_PASSWORD_LENGTH : ℚ := 20

/-- Shallow embedding of `normalizePasswordOptions` (src/core/validation.ts):
round then clamp the length into [8,128]; merge a partial include object
with the defaults; default excludeAmbiguous := true, requireEachClass := true. -/
def normalizePasswordOptions (o : PartialPasswordOptions) :
    NormalizedPasswordOptions :=
  let length := (max (PASSWORD_LENGTH_MIN : ℤ)
    (min (PASSWORD_LENGTH_MAX : ℤ)
      (jsRound (o.length.getD DEFAULT_PASSWORD_LENGTH)))).toNat
  let inc : CharacterClassOptions :=
    match o.include' with
    | some pi =>
      { lowercase := pi.lowercase.getD true
        uppercase := pi.uppercase.getD true
        digits := pi.digits.getD true
        symbols := pi.symbols.getD false }
    | none => { lowercase := true, uppercase := true, digits := true, symbols := false }
  { length := length
    include' := inc
    excludeAmbiguous := o.excludeAmbiguous.getD true
    requireEachClass := o.requireEachClass.getD true }

/-- Re-inject a normalized configuration as a fully specified partial one
(this is how a second call to `normalizePasswordOptions` sees it). -/
def NormalizedPasswordOptions.toPartial (n : NormalizedPasswordOptions) :
    PartialPasswordOptions :=
  { length := some (n.length : ℚ)
    include' := some
      { lowercase := some n.include'.lowercase
        uppercase := some n.include'.uppercase
        digits := some n.include'.digits
        symbols := some n.include'.symbols }
    excludeAmbiguous := some n.excludeAmbiguous
    requireEachClass := some n.requireEachClass }

theorem jsRound_natCast (m : Nat) : jsRound (m : ℚ) = m := by
  unfold jsRound
  rw [add_comm]
  rw [show ((m : ℚ)) = ((m : ℤ) : ℚ) by push_cast; ring]
  rw [Int.floor_add_int]
  norm_num

theorem normalize_length_bounds (o : PartialPasswordOptions) :
    PASSWORD_LENGTH_MIN ≤ (normalizePasswordOptions o).length ∧
    (normalizePasswordOptions o).length ≤ PASSWORD_LENGTH_MAX := by
  unfold normalizePasswordOptions PASSWORD_LENGTH_MIN PASSWORD_LENGTH_MAX
  simp only
  constructor <;>
  · have h := le_max_left (PASSWORD_LENGTH_MIN : ℤ)
      (min (PASSWORD_LENGTH_MAX : ℤ) (jsRound (o.length.getD DEFAULT_PASSWORD_LENGTH)))
    have h2 := min_le_left (PASSWORD_LENGTH_MAX : ℤ)
      (jsRound (o.length.getD DEFAULT_PASSWORD_LENGTH))
    unfold PASSWORD_LENGTH_MIN PASSWORD_LENGTH_MAX at h h2
    omega

/-- C9: `normalizePasswordOptions` is idempotent — normalizing an already
normalized configuration (re-seen as a fully specified partial config)
changes nothing: the clamped length re-rounds and re-clamps to itself and
every defaulted field is preserved. -/
theorem C9_normalizePasswordOptions_idempotent (o : PartialPasswordOptions) :
    normalizePasswordOptions (normalizePasswordOptions o).toPartial =
    normalizePasswordOptions o := by
  obtain ⟨hlo, hhi⟩ := normalize_length_bounds o
  rcases hno : normalizePasswordOptions o with ⟨L, inc, ea, rc⟩
  rw [hno] at hlo hhi
  simp only at hlo hhi
  simp only [PASSWORD_LENGTH_MIN, PASSWORD_LENGTH_MAX] at hlo hhi
  unfold NormalizedPasswordOptions.toPartial normalizePasswordOptions
  simp only [Option.getD_some, jsRound_natCast]
  have hlen : (max (PASSWORD_LENGTH_MIN : ℤ)
      (min (PASSWORD_LENGTH_MAX : ℤ) (L : ℤ))).toNat = L := by
    simp only [PASSWORD_LENGTH_MIN, PASSWORD_LENGTH_MAX]
    omega
  simp [NormalizedPasswordOptions.mk.injEq, hlen]

/-! ## Entropy estimate (src/core/password.ts) -/

/-- Shallow embedding of `estimateEntropy`: `length * log2(|charset|)`, 0 on
an empty charset (the source computes with floating point; the value is
modelled as the exact real). -/
noncomputable def estimateEntropy (o : PartialPasswordOptions) : ℝ :=
  let normalized := normalizePasswordOptions o
  let charset := buildCharset normalized.include' normalized.excludeAmbiguous
  if charset.length = 0 then 0
  else (normalized.length : ℝ) * Real.logb 2 (charset.length : ℝ)

theorem normalize_length_of_nat (L : ℕ) (h8 : 8 ≤ L) (h128 : L ≤ 128)
    (inc : Option PartialCharacterClassOptions) (ea rc : Option Bool) :
    (normalizePasswordOptions ⟨some (L : ℚ), inc, ea, rc⟩).length = L := by
  unfold normalizePasswordOptions
  simp only [Option.getD_some, jsRound_natCast]
  simp only [PASSWORD_LENGTH_MIN, PASSWORD_LENGTH_MAX]
  omega

theorem normalize_fields_of_length (q q' : Option ℚ)
    (inc : Option PartialCharacterClassOptions) (ea rc : Option Bool) :
    (normalizePasswordOptions ⟨q, inc, ea, rc⟩).include' =
      (normalizePasswordOptions ⟨q', inc, ea, rc⟩).include' ∧
    (normalizePasswordOptions ⟨q, inc, ea, rc⟩).excludeAmbiguous =
      (normalizePasswordOptions ⟨q', inc, ea, rc⟩).excludeAmbiguous := by
  unfold normalizePasswordOptions
  exact ⟨rfl, rfl⟩

/-- C6 (amended): `estimateEntropy` is a deterministic function of its
options, returns 0 when the composed alphabet is empty, equals
`normalizedLength * log2 |unionAlphabet|` otherwise, and is linear in the
requested length whenever both L and 2L lie inside the normalization
bounds [8,128]. -/
theorem C6_estimateEntropy_properties :
    (∀ o o2 : PartialPasswordOptions, o = o2 →
      estimateEntropy o = estimateEntropy o2) ∧
    (∀ o : PartialPasswordOptions,
      buildCharset (normalizePasswordOptions o).include'
        (normalizePasswordOptions o).excludeAmbiguous = [] →
      estimateEntropy o = 0) ∧
    (∀ o : PartialPasswordOptions,
      buildCharset (normalizePasswordOptions o).include'
        (normalizePasswordOptions o).excludeAmbiguous ≠ [] →
      estimateEntropy o = ((normalizePasswordOptions o).length : ℝ) *
        Real.logb 2 (((buildCharset (normalizePasswordOptions o).include'
          (normalizePasswordOptions o).excludeAmbiguous).length : ℝ))) ∧
    (∀ (L : ℕ) (inc : Option PartialCharacterClassOptions) (ea rc : Option Bool),
      8 ≤ L → 2 * L ≤ 128 →
      estimateEntropy ⟨some ((2 * L : ℕ) : ℚ), inc, ea, rc⟩ =
        2 * estimateEntropy ⟨some ((L : ℕ) : ℚ), inc, ea, rc⟩) := by
  refine ⟨fun o o2 h => by rw [h], ?_, ?_, ?_⟩
  · intro o hempty
    unfold estimateEntropy
    simp only [hempty, List.length_nil, if_pos]
  · intro o hne
    unfold estimateEntropy
    have : (buildCharset (normalizePasswordOptions o).include'
        (normalizePasswordOptions o).excludeAmbiguous).length ≠ 0 := by
      simpa [List.length_eq_zero] using hne
    simp only [this, if_neg, ite_false]
  · intro L inc ea rc h8 h128
    have hlen2 : (normalizePasswordOptions ⟨some ((2 * L : ℕ) : ℚ), inc, ea, rc⟩).length
        = 2 * L := normalize_length_of_nat (2 * L) (by omega) h128 inc ea rc
    have hlen1 : (normalizePasswordOptions ⟨some ((L : ℕ) : ℚ), inc, ea, rc⟩).length
        = L := normalize_length_of_nat L h8 (by omega) inc ea rc
    obtain ⟨hinc, hea⟩ := normalize_fields_of_length
      (some ((2 * L : ℕ) : ℚ)) (some ((L : ℕ) : ℚ)) inc ea rc
    unfold estimateEntropy
    simp only [hlen1, hlen2, hinc, hea]
    by_cases hz : (buildCharset
        (normalizePasswordOptions ⟨some ((L : ℕ) : ℚ), inc, ea, rc⟩).include'
        (normalizePasswordOptions ⟨some ((L : ℕ) : ℚ), inc, ea, rc⟩).excludeAmbiguous).length = 0
    · simp [hz]
    · simp only [hz, ite_false, if_neg]
      push_cast
      ring

/-- C6 counterexample: linearity fails once 2L crosses the clamp bound —
with the default classes, length 200 normalizes to 128 while length 100
stays 100, so doubling 100 does not double the entropy. -/
theorem C6_estimateEntropy_linearity_cex :
    estimateEntropy ⟨some (200 : ℚ), none, none, none⟩ ≠
    2 * estimateEntropy ⟨some (100 : ℚ), none, none, none⟩ := by
  have hc200 : (200 : ℚ) = ((200 : ℕ) : ℚ) := by norm_num
  have hc100 : (100 : ℚ) = ((100 : ℕ) : ℚ) := by norm_num
  have hl1 : (normalizePasswordOptions ⟨some (200 : ℚ), none, none, none⟩).length
      = 128 := by
    rw [hc200]
    unfold normalizePasswordOptions
    simp only [Option.getD_some, jsRound_natCast,
      PASSWORD_LENGTH_MIN, PASSWORD_LENGTH_MAX]
    omega
  have hl2 : (normalizePasswordOptions ⟨some (100 : ℚ), none, none, none⟩).length
      = 100 := by
    rw [hc100]
    unfold normalizePasswordOptions
    simp only [Option.getD_some, jsRound_natCast,
      PASSWORD_LENGTH_MIN, PASSWORD_LENGTH_MAX]
    omega
  have hinc1 : (normalizePasswordOptions ⟨some (200 : ℚ), none, none, none⟩).include'
      = ⟨true, true, true, false⟩ := rfl
  have hinc2 : (normalizePasswordOptions ⟨some (100 : ℚ), none, none, none⟩).include'
      = ⟨true, true, true, false⟩ := rfl
  have hea1 : (normalizePasswordOptions ⟨some (200 : ℚ), none, none, none⟩).excludeAmbiguous
      = true := rfl
  have hea2 : (normalizePasswordOptions ⟨some (100 : ℚ), none, none, none⟩).excludeAmbiguous
      = true := rfl
  have hcs : (buildCharset ⟨true, true, true, false⟩ true).length = 57 := by decide
  unfold estimateEntropy
  simp only [hl1, hl2, hinc1, hinc2, hea1, hea2, hcs]
  norm_num
  have hx : 0 < Real.logb 2 (57 : ℝ) :=
    Real.logb_pos (by norm_num) (by norm_num)
  intro heq
  nlinarith [heq, hx]

theorem C6_estimateEntropy_properties_witness :
    estimateEntropy ⟨some ((2 * 10 : ℕ) : ℚ), none, none, none⟩ =
      2 * estimateEntropy ⟨some ((10 : ℕ) : ℚ), none, none, none⟩ :=
  C6_estimateEntropy_properties.2.2.2 10 none none none (by omega) (by omega)

/-! ## Fisher–Yates shuffle (src/core/random.ts) -/

/-- The `[array[i], array[j]] = [array[j], array[i]]` swap on a list;
out-of-bounds indices leave the list unchanged (they never occur in the
shuffle loop). -/
def listSwap {α : Type} (l : List α) (i j : Nat) : List α :=
  match l[i]?, l[j]? with
  | some a, some b => (l.set i b).set j a
  | _, _ => l

theorem cons_perm_set {α : Type} (x : α) :
    ∀ (t : List α) (j : Nat) (b : α), t[j]? = some b →
      List.Perm (x :: t) (b :: t.set j x) := by
  intro t
  induction t with
  | nil => intro j b h; simp at h
  | cons y t ih =>
    intro j b h
    cases j with
    | zero =>
      simp at h
      subst h
      simpa using List.Perm.swap y x t
    | succ j =>
      simp only [List.getElem?_cons_succ] at h
      have h2 := ih j b h
      simp only [List.set_cons_succ]
      exact (List.Perm.swap y x t).trans ((h2.cons y).trans
        (List.Perm.swap b y (t.set j x)))

theorem listSwap_perm {α : Type} : ∀ (l : List α) (i j : Nat),
    List.Perm (listSwap l i j) l := by
  intro l
  induction l with
  | nil => intro i j; rfl
  | cons x t ih =>
    intro i j
    unfold listSwap
    cases i with
    | zero =>
      cases j with
      | zero => simp
      | succ k =>
        cases hk : t[k]? with
        | none => simp [hk]
        | some b =>
          simp only [List.getElem?_cons_zero, List.getElem?_cons_succ, hk,
            List.set_cons_zero, List.set_cons_succ]
          exact (cons_perm_set x t k b hk).symm
    | succ m =>
      cases hm : t[m]? with
      | none =>
        simp [hm]
      | some a =>
        cases j with
        | zero =>
          simp only [List.getElem?_cons_zero, List.getElem?_cons_succ, hm,
            List.set_cons_zero, List.set_cons_succ]
          exact (cons_perm_set x t m a hm).symm
        | succ k =>
          cases hk : t[k]? with
          | none => simp [hm, hk]
          | some b =>
            simp only [List.getElem?_cons_succ, hm, hk, List.set_cons_succ]
            have h3 := ih m k
            unfold listSwap at h3
            rw [hm, hk] at h3
            exact h3.cons x

/-- The body of the Fisher–Yates loop `for (let i = length - 1; i > 0; i--)`:
`shuffleStep i` performs the iterations at indices i, i-1, …, 1. -/
def shuffleStep (s : Nat → Nat) (fuel : Nat) :
    Nat → List Char → Nat → Option (List Char × Nat)
  | 0, l, pos => some (l, pos)
  | i + 1, l, pos =>
    match uniformRandomIndex s fuel pos (i + 2) with
    | .ok j p => shuffleStep s fuel i (listSwap l (i + 1) j) p
    | _ => none

/-- Shallow embedding of `shuffle` (src/core/random.ts). -/
def shuffle (s : Nat → Nat) (fuel : Nat) (l : List Char) (pos : Nat) :
    Option (List Char × Nat) :=
  shuffleStep s fuel (l.length - 1) l pos

theorem shuffleStep_perm (s : Nat → Nat) (fuel : Nat) :
    ∀ i l pos out p, shuffleStep s fuel i l pos = some (out, p) →
      List.Perm out l := by
  intro i
  induction i with
  | zero =>
    intro l pos out p h
    simp only [shuffleStep, Option.some.injEq, Prod.mk.injEq] at h
    rw [h.1]
  | succ i ih =>
    intro l pos out p h
    rw [shuffleStep] at h
    cases heq : uniformRandomIndex s fuel pos (i + 2) with
    | ok j p' =>
      rw [heq] at h
      exact (ih _ p' out p h).trans (listSwap_perm l (i + 1) j)
    | invalidArg => rw [heq] at h; exact absurd h (by simp)
    | outOfFuel => rw [heq] at h; exact absurd h (by simp)

/-- A successful shuffle permutes its input (in particular it preserves the
multiset of characters and the length). -/
theorem shuffle_perm (s : Nat → Nat) (fuel : Nat) (l : List Char) (pos : Nat)
    (out : List Char) (p : Nat) (h : shuffle s fuel l pos = some (out, p)) :
    List.Perm out l :=
  shuffleStep_perm s fuel (l.length - 1) l pos out p h

theorem getD_mem {α : Type} (l : List α) (i : Nat) (d : α) (h : i < l.length) :
    l.getD i d ∈ l := by
  rw [List.getD_eq_getElem l d h]
  exact List.getElem_mem h

/-- `uniformRandomIndex` can only succeed on a positive alphabet size. -/
theorem uniformRandomIndex_ok_pos (s : Nat → Nat) (fuel pos n idx p : Nat)
    (h : uniformRandomIndex s fuel pos n = .ok idx p) : 0 < n := by
  by_contra hn
  have : n = 0 := by omega
  subst this
  simp [uniformRandomIndex] at h

/-! ## Password generation (src/core/password.ts) -/

/-- Result of `generatePassword`: the password characters and final stream
position, or one of the thrown errors, or fuel exhaustion. -/
inductive PasswordResult where
  | ok (pw : List Char) (pos : Nat)
  | noCharactersAvailable
  | noClassesAvailable
  | outOfFuel
  deriving DecidableEq, Repr

/-- One `password.push(charset[uniformRandomIndex(rng, charset.length)])`
loop drawing `m` characters from a fixed alphabet. -/
def drawChars (s : Nat → Nat) (fuel : Nat) (alphabet : List Char) :
    Nat → List Char → Nat → Option (List Char × Nat)
  | 0, acc, pos => some (acc, pos)
  | m + 1, acc, pos =>
    match uniformRandomIndex s fuel pos alphabet.length with
    | .ok idx p => drawChars s fuel alphabet m (acc ++ [alphabet.getD idx ' ']) p
    | _ => none

/-- The `for (const charset of classCharsets)` loop drawing one character
from each per-class alphabet (skipping empty ones, as the source does). -/
def drawOnePerClass (s : Nat → Nat) (fuel : Nat) :
    List (List Char) → List Char → Nat → Option (List Char × Nat)
  | [], acc, pos => some (acc, pos)
  | cs :: rest, acc, pos =>
    if cs.length = 0 then drawOnePerClass s fuel rest acc pos
    else
      match uniformRandomIndex s fuel pos cs.length with
      | .ok idx p => drawOnePerClass s fuel rest (acc ++ [cs.getD idx ' ']) p
      | _ => none

/-- Shallow embedding of `generatePassword` (src/core/password.ts). -/
def generatePassword (o : PartialPasswordOptions) (s : Nat → Nat)
    (fuel pos : Nat) : PasswordResult :=
  let normalized := normalizePasswordOptions o
  let unionCharset := buildCharset normalized.include' normalized.excludeAmbiguous
  if unionCharset.length = 0 then .noCharactersAvailable
  else if normalized.requireEachClass then
    let classCharsets := getClassCharsets normalized.include' normalized.excludeAmbiguous
    if classCharsets.length = 0 then .noClassesAvailable
    else
      match drawOnePerClass s fuel classCharsets [] pos with
      | some (acc, p1) =>
        match drawChars s fuel unionCharset (normalized.length - acc.length) acc p1 with
        | some (pw, p2) =>
          match shuffle s fuel pw p2 with
          | some (pw2, p3) => .ok pw2 p3
          | none => .outOfFuel
        | none => .outOfFuel
      | none => .outOfFuel
  else
    match drawChars s fuel unionCharset normalized.length [] pos with
    | some (pw, p2) =>
      match shuffle s fuel pw p2 with
      | some (pw2, p3) => .ok pw2 p3
      | none => .outOfFuel
    | none => .outOfFuel

theorem drawChars_spec (s : Nat → Nat) (fuel : Nat) (alphabet : List Char) :
    ∀ m acc pos out p, drawChars s fuel alphabet m acc pos = some (out, p) →
      out.length = acc.length + m ∧
      (∃ extra, out = acc ++ extra) ∧
      (∀ c ∈ out, c ∈ acc ∨ c ∈ alphabet) := by
  intro m
  induction m with
  | zero =>
    intro acc pos out p h
    simp only [drawChars, Option.some.injEq, Prod.mk.injEq] at h
    obtain ⟨h1, _⟩ := h
    subst h1
    exact ⟨by omega, ⟨[], by simp⟩, fun c hc => Or.inl hc⟩
  | succ m ih =>
    intro acc pos out p h
    rw [drawChars] at h
    cases heq : uniformRandomIndex s fuel pos alphabet.length with
    | ok idx p' =>
      rw [heq] at h
      have hpos := uniformRandomIndex_ok_pos s fuel pos _ idx p' heq
      have hidx : idx < alphabet.length :=
        uniformRandomIndex_lt s fuel pos _ idx p' hpos heq
      obtain ⟨ihl, ⟨extra, hpref⟩, ihm⟩ := ih (acc ++ [alphabet.getD idx ' ']) p' out p h
      refine ⟨by simp at ihl; omega, ⟨[alphabet.getD idx ' '] ++ extra, by simp [hpref]⟩, ?_⟩
      intro c hc
      rcases ihm c hc with hin | hin
      · rcases List.mem_append.mp hin with h' | h'
        · exact Or.inl h'
        · simp only [List.mem_singleton] at h'
          subst h'
          exact Or.inr (getD_mem alphabet idx ' ' hidx)
      · exact Or.inr hin
    | invalidArg => rw [heq] at h; exact absurd h (by simp)
    | outOfFuel => rw [heq] at h; exact absurd h (by simp)

theorem drawOnePerClass_spec (s : Nat → Nat) (fuel : Nat) :
    ∀ css acc pos out p, drawOnePerClass s fuel css acc pos = some (out, p) →
      ∃ extra, out = acc ++ extra ∧
        (∀ c ∈ extra, ∃ cs ∈ css, c ∈ cs) ∧
        (∀ cs ∈ css, cs ≠ [] → ∃ c ∈ extra, c ∈ cs) ∧
        ((∀ cs ∈ css, cs ≠ []) → extra.length = css.length) := by
  intro css
  induction css with
  | nil =>
    intro acc pos out p h
    simp only [drawOnePerClass, Option.some.injEq, Prod.mk.injEq] at h
    obtain ⟨h1, _⟩ := h
    subst h1
    exact ⟨[], by simp, by simp, by simp, by simp⟩
  | cons cs rest ih =>
    intro acc pos out p h
    rw [drawOnePerClass] at h
    by_cases hempty : cs.length = 0
    · rw [if_pos hempty] at h
      obtain ⟨extra, heq, hmem, hcov, hlen⟩ := ih acc pos out p h
      have hcsnil : cs = [] := List.length_eq_zero.mp hempty
      refine ⟨extra, heq, ?_, ?_, ?_⟩
      · intro c hc
        obtain ⟨cs', hcs', hin⟩ := hmem c hc
        exact ⟨cs', List.mem_cons_of_mem cs hcs', hin⟩
      · intro cs' hcs' hne
        rcases List.mem_cons.mp hcs' with h' | h'
        · exact absurd (h' ▸ hcsnil) hne
        · exact hcov cs' h' hne
      · intro hall
        exact absurd hcsnil (hall cs (List.mem_cons_self cs rest))
    · rw [if_neg hempty] at h
      cases heq : uniformRandomIndex s fuel pos cs.length with
      | ok idx p' =>
        rw [heq] at h
        have hidx : idx < cs.length :=
          uniformRandomIndex_lt s fuel pos _ idx p' (by omega) heq
        obtain ⟨extra, hout, hmem, hcov, hlen⟩ :=
          ih (acc ++ [cs.getD idx ' ']) p' out p h
        have hc0 : cs.getD idx ' ' ∈ cs := getD_mem cs idx ' ' hidx
        refine ⟨[cs.getD idx ' '] ++ extra, by simp [hout], ?_, ?_, ?_⟩
        · intro c hc
          rcases List.mem_append.mp hc with h' | h'
          · simp only [List.mem_singleton] at h'
            exact ⟨cs, List.mem_cons_self cs rest, h' ▸ hc0⟩
          · obtain ⟨cs', hcs', hin⟩ := hmem c h'
            exact ⟨cs', List.mem_cons_of_mem cs hcs', hin⟩
        · intro cs' hcs' hne
          rcases List.mem_cons.mp hcs' with h' | h'
          · exact ⟨cs.getD idx ' ', by simp, h' ▸ hc0⟩
          · obtain ⟨c, hc, hin⟩ := hcov cs' h' hne
            exact ⟨c, List.mem_append_right _ hc, hin⟩
        · intro hall
          have := hlen (fun cs' h' => hall cs' (List.mem_cons_of_mem cs h'))
          simp [this]
      | invalidArg => rw [heq] at h; exact absurd h (by simp)
      | outOfFuel => rw [heq] at h; exact absurd h (by simp)

theorem getClassCharsets_mem_ne_nil (inc : CharacterClassOptions) (excl : Bool) :
    ∀ cs ∈ getClassCharsets inc excl, cs ≠ [] := by
  obtain ⟨a, b, c, d⟩ := inc
  cases a <;> cases b <;> cases c <;> cases d <;> cases excl <;> decide

theorem getClassCharsets_length_le (inc : CharacterClassOptions) (excl : Bool) :
    (getClassCharsets inc excl).length ≤ 4 := by
  obtain ⟨a, b, c, d⟩ := inc
  cases a <;> cases b <;> cases c <;> cases d <;> cases excl <;> decide

theorem getClassCharsets_subset_union (inc : CharacterClassOptions) (excl : Bool) :
    ∀ cs ∈ getClassCharsets inc excl, ∀ c ∈ cs, c ∈ buildCharset inc excl := by
  obtain ⟨a, b, c, d⟩ := inc
  cases a <;> cases b <;> cases c <;> cases d <;> cases excl <;> decide

theorem buildCharset_empty_iff (inc : CharacterClassOptions) (excl : Bool) :
    buildCharset inc excl = [] ↔
      inc.lowercase = false ∧ inc.uppercase = false ∧
      inc.digits = false ∧ inc.symbols = false := by
  obtain ⟨a, b, c, d⟩ := inc
  cases a <;> cases b <;> cases c <;> cases d <;> cases excl <;> decide

theorem getClassCharsets_ne_nil_of_union (inc : CharacterClassOptions) (excl : Bool)
    (h : buildCharset inc excl ≠ []) : getClassCharsets inc excl ≠ [] := by
  obtain ⟨a, b, c, d⟩ := inc
  cases a <;> cases b <;> cases c <;> cases d <;> cases excl <;> revert h <;> decide

/-- Inversion of a successful `generatePassword`: the output has exactly the
normalized length, draws only characters of the union alphabet or of the
per-class alphabets, and (when requireEachClass) contains one character of
every per-class alphabet. -/
theorem generatePassword_ok_spec (o : PartialPasswordOptions) (s : Nat → Nat)
    (fuel pos : Nat) (pw : List Char) (p : Nat)
    (h : generatePassword o s fuel pos = .ok pw p) :
    pw.length = (normalizePasswordOptions o).length ∧
    (∀ c ∈ pw, c ∈ buildCharset (normalizePasswordOptions o).include'
        (normalizePasswordOptions o).excludeAmbiguous ∨
      ∃ cs ∈ getClassCharsets (normalizePasswordOptions o).include'
        (normalizePasswordOptions o).excludeAmbiguous, c ∈ cs) ∧
    ((normalizePasswordOptions o).requireEachClass = true →
      ∀ cs ∈ getClassCharsets (normalizePasswordOptions o).include'
        (normalizePasswordOptions o).excludeAmbiguous, ∃ c ∈ pw, c ∈ cs) := by
  have hbounds := normalize_length_bounds o
  unfold generatePassword at h
  simp only at h
  by_cases hUe : (buildCharset (normalizePasswordOptions o).include'
      (normalizePasswordOptions o).excludeAmbiguous).length = 0
  · rw [if_pos hUe] at h
    exact absurd h (by simp)
  rw [if_neg hUe] at h
  by_cases hreq : (normalizePasswordOptions o).requireEachClass = true
  · rw [if_pos hreq] at h
    by_cases hCSe : (getClassCharsets (normalizePasswordOptions o).include'
        (normalizePasswordOptions o).excludeAmbiguous).length = 0
    · rw [if_pos hCSe] at h
      exact absurd h (by simp)
    rw [if_neg hCSe] at h
    cases h1 : drawOnePerClass s fuel (getClassCharsets
        (normalizePasswordOptions o).include'
        (normalizePasswordOptions o).excludeAmbiguous) [] pos with
    | none => rw [h1] at h; exact absurd h (by simp)
    | some ap =>
      obtain ⟨acc, p1⟩ := ap
      rw [h1] at h
      dsimp only at h
      cases h2 : drawChars s fuel (buildCharset
          (normalizePasswordOptions o).include'
          (normalizePasswordOptions o).excludeAmbiguous)
          ((normalizePasswordOptions o).length - acc.length) acc p1 with
      | none => rw [h2] at h; exact absurd h (by simp)
      | some wp =>
        obtain ⟨pw1, p2⟩ := wp
        rw [h2] at h
        dsimp only at h
        cases h3 : shuffle s fuel pw1 p2 with
        | none => rw [h3] at h; exact absurd h (by simp)
        | some sp =>
          obtain ⟨pw2, p3⟩ := sp
          rw [h3] at h
          dsimp only at h
          simp only [PasswordResult.ok.injEq] at h
          obtain ⟨hpw, _⟩ := h
          subst hpw
          have hperm := shuffle_perm s fuel pw1 p2 pw2 p3 h3
          obtain ⟨extra, hacc_eq, hext_mem, hext_cov, hext_len⟩ :=
            drawOnePerClass_spec s fuel _ [] pos acc p1 h1
          simp only [List.nil_append] at hacc_eq
          obtain ⟨hdc_len, ⟨extra2, hpref⟩, hdc_mem⟩ :=
            drawChars_spec s fuel _ _ acc p1 pw1 p2 h2
          have hne := getClassCharsets_mem_ne_nil
            (normalizePasswordOptions o).include'
            (normalizePasswordOptions o).excludeAmbiguous
          have hextlen : extra.length = (getClassCharsets
              (normalizePasswordOptions o).include'
              (normalizePasswordOptions o).excludeAmbiguous).length :=
            hext_len hne
          have hcs4 := getClassCharsets_length_le
            (normalizePasswordOptions o).include'
            (normalizePasswordOptions o).excludeAmbiguous
          refine ⟨?_, ?_, ?_⟩
          · rw [hperm.length_eq, hdc_len, hacc_eq, hextlen]
            simp only [PASSWORD_LENGTH_MIN, PASSWORD_LENGTH_MAX] at hbounds
            omega
          · intro c hc
            have hc1 : c ∈ pw1 := hperm.mem_iff.mp hc
            rcases hdc_mem c hc1 with hin | hin
            · rw [hacc_eq] at hin
              exact Or.inr (hext_mem c hin)
            · exact Or.inl hin
          · intro _ cs hcs
            obtain ⟨c, hcex, hcin⟩ := hext_cov cs hcs (hne cs hcs)
            refine ⟨c, ?_, hcin⟩
            have : c ∈ pw1 := by
              rw [hpref, hacc_eq]
              exact List.mem_append_left extra2 hcex
            exact hperm.mem_iff.mpr this
  · rw [if_neg hreq] at h
    cases h2 : drawChars s fuel (buildCharset
        (normalizePasswordOptions o).include'
        (normalizePasswordOptions o).excludeAmbiguous)
        (normalizePasswordOptions o).length [] pos with
    | none => rw [h2] at h; exact absurd h (by simp)
    | some wp =>
      obtain ⟨pw1, p2⟩ := wp
      rw [h2] at h
      dsimp only at h
      cases h3 : shuffle s fuel pw1 p2 with
      | none => rw [h3] at h; exact absurd h (by simp)
      | some sp =>
        obtain ⟨pw2, p3⟩ := sp
        rw [h3] at h
        dsimp only at h
        simp only [PasswordResult.ok.injEq] at h
        obtain ⟨hpw, _⟩ := h
        subst hpw
        have hperm := shuffle_perm s fuel pw1 p2 pw2 p3 h3
        obtain ⟨hdc_len, _, hdc_mem⟩ :=
          drawChars_spec s fuel _ _ [] pos pw1 p2 h2
        refine ⟨?_, ?_, fun hcontra => absurd hcontra hreq⟩
        · rw [hperm.length_eq, hdc_len]
          simp
        · intro c hc
          have hc1 : c ∈ pw1 := hperm.mem_iff.mp hc
          rcases hdc_mem c hc1 with hin | hin
          · exact absurd hin (List.not_mem_nil c)
          · exact Or.inl hin

theorem lower_mem_getClassCharsets (inc : CharacterClassOptions) (excl : Bool)
    (h : inc.lowercase = true) :
    (if excl then stripAmbiguous LOWER else LOWER) ∈ getClassCharsets inc excl := by
  obtain ⟨a, b, c, d⟩ := inc
  revert h
  cases a <;> cases b <;> cases c <;> cases d <;> cases excl <;> decide

theorem upper_mem_getClassCharsets (inc : CharacterClassOptions) (excl : Bool)
    (h : inc.uppercase = true) :
    (if excl then stripAmbiguous UPPER else UPPER) ∈ getClassCharsets inc excl := by
  obtain ⟨a, b, c, d⟩ := inc
  revert h
  cases a <;> cases b <;> cases c <;> cases d <;> cases excl <;> decide

theorem digits_mem_getClassCharsets (inc : CharacterClassOptions) (excl : Bool)
    (h : inc.digits = true) :
    (if excl then stripAmbiguous DIGIT else DIGIT) ∈ getClassCharsets inc excl := by
  obtain ⟨a, b, c, d⟩ := inc
  revert h
  cases a <;> cases b <;> cases c <;> cases d <;> cases excl <;> decide

theorem symbols_mem_getClassCharsets (inc : CharacterClassOptions) (excl : Bool)
    (h : inc.symbols = true) :
    (if excl then stripAmbiguousPipe SYMBOL else SYMBOL) ∈ getClassCharsets inc excl := by
  obtain ⟨a, b, c, d⟩ := inc
  revert h
  cases a <;> cases b <;> cases c <;> cases d <;> cases excl <;> decide

theorem pipe_not_mem_buildCharset (inc : CharacterClassOptions) (excl : Bool) :
    '|' ∉ buildCharset inc excl := by
  obtain ⟨a, b, c, d⟩ := inc
  cases a <;> cases b <;> cases c <;> cases d <;> cases excl <;> decide

theorem ambiguous_not_mem_buildCharset (inc : CharacterClassOptions) :
    ∀ c ∈ (['I', 'l', '1', 'O', '0'] : List Char), c ∉ buildCharset inc true := by
  obtain ⟨a, b, c, d⟩ := inc
  cases a <;> cases b <;> cases c <;> cases d <;> decide

/-- C3: whenever `generatePassword` returns a password, its length equals the
normalized length, which always lies in [8,128]; in the requireEachClass
branch the per-class draws plus the fill draws sum exactly to the normalized
length. -/
theorem C3_generatePassword_length (o : PartialPasswordOptions) (s : Nat → Nat)
    (fuel pos : Nat) (pw : List Char) (p : Nat)
    (h : generatePassword o s fuel pos = .ok pw p) :
    pw.length = (normalizePasswordOptions o).length ∧
    8 ≤ (normalizePasswordOptions o).length ∧
    (normalizePasswordOptions o).length ≤ 128 ∧
    ((normalizePasswordOptions o).requireEachClass = true →
      (getClassCharsets (normalizePasswordOptions o).include'
          (normalizePasswordOptions o).excludeAmbiguous).length +
        ((normalizePasswordOptions o).length -
          (getClassCharsets (normalizePasswordOptions o).include'
            (normalizePasswordOptions o).excludeAmbiguous).length) =
        (normalizePasswordOptions o).length) := by
  have hbounds := normalize_length_bounds o
  simp only [PASSWORD_LENGTH_MIN, PASSWORD_LENGTH_MAX] at hbounds
  have hcs4 := getClassCharsets_length_le (normalizePasswordOptions o).include'
    (normalizePasswordOptions o).excludeAmbiguous
  exact ⟨(generatePassword_ok_spec o s fuel pos pw p h).1,
    hbounds.1, hbounds.2, fun _ => by omega⟩

/-- C2: when the normalized configuration has requireEachClass = true, a
successfully generated password contains at least one character from every
enabled class's per-class alphabet (after ambiguous filtering). -/
theorem C2_generatePassword_each_class (o : PartialPasswordOptions)
    (s : Nat → Nat) (fuel pos : Nat) (pw : List Char) (p : Nat)
    (hreq : (normalizePasswordOptions o).requireEachClass = true)
    (h : generatePassword o s fuel pos = .ok pw p) :
    ((normalizePasswordOptions o).include'.lowercase = true →
      ∃ c ∈ pw, c ∈ (if (normalizePasswordOptions o).excludeAmbiguous
        then stripAmbiguous LOWER else LOWER)) ∧
    ((normalizePasswordOptions o).include'.uppercase = true →
      ∃ c ∈ pw, c ∈ (if (normalizePasswordOptions o).excludeAmbiguous
        then stripAmbiguous UPPER else UPPER)) ∧
    ((normalizePasswordOptions o).include'.digits = true →
      ∃ c ∈ pw, c ∈ (if (normalizePasswordOptions o).excludeAmbiguous
        then stripAmbiguous DIGIT else DIGIT)) ∧
    ((normalizePasswordOptions o).include'.symbols = true →
      ∃ c ∈ pw, c ∈ (if (normalizePasswordOptions o).excludeAmbiguous
        then stripAmbiguousPipe SYMBOL else SYMBOL)) := by
  have hcov := (generatePassword_ok_spec o s fuel pos pw p h).2.2 hreq
  exact ⟨fun hc => hcov _ (lower_mem_getClassCharsets _ _ hc),
    fun hc => hcov _ (upper_mem_getClassCharsets _ _ hc),
    fun hc => hcov _ (digits_mem_getClassCharsets _ _ hc),
    fun hc => hcov _ (symbols_mem_getClassCharsets _ _ hc)⟩

/-- C10: every character of a successfully generated password belongs to the
composed union alphabet; in particular the output never contains the pipe
character, and with excludeAmbiguous it contains none of I, l, 1, O, 0. -/
theorem C10_generatePassword_chars_in_union (o : PartialPasswordOptions)
    (s : Nat → Nat) (fuel pos : Nat) (pw : List Char) (p : Nat)
    (h : generatePassword o s fuel pos = .ok pw p) :
    (∀ c ∈ pw, c ∈ buildCharset (normalizePasswordOptions o).include'
      (normalizePasswordOptions o).excludeAmbiguous) ∧
    '|' ∉ pw ∧
    ((normalizePasswordOptions o).excludeAmbiguous = true →
      ∀ c ∈ pw, c ∉ (['I', 'l', '1', 'O', '0'] : List Char)) := by
  have hmem := (generatePassword_ok_spec o s fuel pos pw p h).2.1
  have hunion : ∀ c ∈ pw, c ∈ buildCharset (normalizePasswordOptions o).include'
      (normalizePasswordOptions o).excludeAmbiguous := by
    intro c hc
    rcases hmem c hc with hin | ⟨cs, hcs, hin⟩
    · exact hin
    · exact getClassCharsets_subset_union _ _ cs hcs c hin
  refine ⟨hunion, ?_, ?_⟩
  · intro hpipe
    exact pipe_not_mem_buildCharset _ _ (hunion '|' hpipe)
  · intro hexcl c hc hamb
    have := hunion c hc
    rw [hexcl] at this
    exact ambiguous_not_mem_buildCharset _ c hamb this

/-- C8: `generatePassword` fails with NoCharactersAvailable exactly when the
composed union alphabet is empty, which happens exactly when every class
flag of the normalized configuration is false; and the NoClassesAvailable
branch is unreachable. -/
theorem C8_generatePassword_empty_alphabet (o : PartialPasswordOptions)
    (s : Nat → Nat) (fuel pos : Nat) :
    (generatePassword o s fuel pos = .noCharactersAvailable ↔
      buildCharset (normalizePasswordOptions o).include'
        (normalizePasswordOptions o).excludeAmbiguous = []) ∧
    (buildCharset (normalizePasswordOptions o).include'
        (normalizePasswordOptions o).excludeAmbiguous = [] ↔
      (normalizePasswordOptions o).include'.lowercase = false ∧
      (normalizePasswordOptions o).include'.uppercase = false ∧
      (normalizePasswordOptions o).include'.digits = false ∧
      (normalizePasswordOptions o).include'.symbols = false) ∧
    generatePassword o s fuel pos ≠ .noClassesAvailable := by
  refine ⟨?_, buildCharset_empty_iff _ _, ?_⟩ <;>
    unfold generatePassword <;>
    simp only <;>
    by_cases hUe : (buildCharset (normalizePasswordOptions o).include'
      (normalizePasswordOptions o).excludeAmbiguous).length = 0
  · rw [if_pos hUe]
    simp [List.length_eq_zero.mp hUe]
  · rw [if_neg hUe]
    have hne : buildCharset (normalizePasswordOptions o).include'
        (normalizePasswordOptions o).excludeAmbiguous ≠ [] := by
      intro hcontra
      rw [hcontra] at hUe
      exact hUe rfl
    simp only [hne, iff_false]
    by_cases hreq : (normalizePasswordOptions o).requireEachClass = true
    · rw [if_pos hreq]
      have hCSne := getClassCharsets_ne_nil_of_union _ _ hne
      have hCSlen : (getClassCharsets (normalizePasswordOptions o).include'
          (normalizePasswordOptions o).excludeAmbiguous).length ≠ 0 := by
        simpa [List.length_eq_zero] using hCSne
      rw [if_neg hCSlen]
      cases h1 : drawOnePerClass s fuel (getClassCharsets
          (normalizePasswordOptions o).include'
          (normalizePasswordOptions o).excludeAmbiguous) [] pos with
      | none => simp
      | some ap =>
        obtain ⟨acc, p1⟩ := ap
        dsimp only
        cases h2 : drawChars s fuel (buildCharset
            (normalizePasswordOptions o).include'
            (normalizePasswordOptions o).excludeAmbiguous)
            ((normalizePasswordOptions o).length - acc.length) acc p1 with
        | none => simp
        | some wp =>
          obtain ⟨pw1, p2⟩ := wp
          dsimp only
          cases h3 : shuffle s fuel pw1 p2 with
          | none => simp
          | some sp => obtain ⟨pw2, p3⟩ := sp; simp
    · rw [if_neg hreq]
      cases h2 : drawChars s fuel (buildCharset
          (normalizePasswordOptions o).include'
          (normalizePasswordOptions o).excludeAmbiguous)
          (normalizePasswordOptions o).length [] pos with
      | none => simp
      | some wp =>
        obtain ⟨pw1, p2⟩ := wp
        dsimp only
        cases h3 : shuffle s fuel pw1 p2 with
        | none => simp
        | some sp => obtain ⟨pw2, p3⟩ := sp; simp
  · rw [if_pos hUe]
    simp
  · rw [if_neg hUe]
    by_cases hreq : (normalizePasswordOptions o).requireEachClass = true
    · rw [if_pos hreq]
      have hne : buildCharset (normalizePasswordOptions o).include'
          (normalizePasswordOptions o).excludeAmbiguous ≠ [] := by
        intro hcontra
        rw [hcontra] at hUe
        exact hUe rfl
      have hCSne := getClassCharsets_ne_nil_of_union _ _ hne
      have hCSlen : (getClassCharsets (normalizePasswordOptions o).include'
          (normalizePasswordOptions o).excludeAmbiguous).length ≠ 0 := by
        simpa [List.length_eq_zero] using hCSne
      rw [if_neg hCSlen]
      cases h1 : drawOnePerClass s fuel (getClassCharsets
          (normalizePasswordOptions o).include'
          (normalizePasswordOptions o).excludeAmbiguous) [] pos with
      | none => simp
      | some ap =>
        obtain ⟨acc, p1⟩ := ap
        dsimp only
        cases h2 : drawChars s fuel (buildCharset
            (normalizePasswordOptions o).include'
            (normalizePasswordOptions o).excludeAmbiguous)
            ((normalizePasswordOptions o).length - acc.length) acc p1 with
        | none => simp
        | some wp =>
          obtain ⟨pw1, p2⟩ := wp
          dsimp only
          cases h3 : shuffle s fuel pw1 p2 with
          | none => simp
          | some sp => obtain ⟨pw2, p3⟩ := sp; simp
    · rw [if_neg hreq]
      cases h2 : drawChars s fuel (buildCharset
          (normalizePasswordOptions o).include'
          (normalizePasswordOptions o).excludeAmbiguous)
          (normalizePasswordOptions o).length [] pos with
      | none => simp
      | some wp =>
        obtain ⟨pw1, p2⟩ := wp
        dsimp only
        cases h3 : shuffle s fuel pw1 p2 with
        | none => simp
        | some sp => obtain ⟨pw2, p3⟩ := sp; simp

/-- A concrete configuration (length 8, lowercase + digits, no ambiguous
filtering, requireEachClass) used to exercise the password generator. -/
def sampleConfig : PartialPasswordOptions :=
  ⟨some ((8 : ℕ) : ℚ), some ⟨some true, some false, some true, some false⟩,
    some false, some true⟩

theorem sampleConfig_run :
    generatePassword sampleConfig (fun _ => 0) 8 0 =
      .ok ['0', 'a', 'a', 'a', 'a', 'a', 'a', 'a'] 15 := by
  have hnorm : normalizePasswordOptions sampleConfig =
      ⟨8, ⟨true, false, true, false⟩, false, true⟩ := by
    unfold sampleConfig normalizePasswordOptions
    simp only [Option.getD_some, jsRound_natCast]
    decide
  unfold generatePassword
  rw [hnorm]
  decide

theorem C3_generatePassword_length_witness :
    generatePassword sampleConfig (fun _ => 0) 8 0 =
      .ok ['0', 'a', 'a', 'a', 'a', 'a', 'a', 'a'] 15 ∧
    (['0', 'a', 'a', 'a', 'a', 'a', 'a', 'a'] : List Char).length =
      (normalizePasswordOptions sampleConfig).length :=
  ⟨sampleConfig_run,
    (C3_generatePassword_length sampleConfig (fun _ => 0) 8 0 _ 15
      sampleConfig_run).1⟩

theorem C2_generatePassword_each_class_witness :
    (normalizePasswordOptions sampleConfig).requireEachClass = true ∧
    ((normalizePasswordOptions sampleConfig).include'.digits = true →
      ∃ c ∈ (['0', 'a', 'a', 'a', 'a', 'a', 'a', 'a'] : List Char),
        c ∈ (if (normalizePasswordOptions sampleConfig).excludeAmbiguous
          then stripAmbiguous DIGIT else DIGIT)) :=
  ⟨rfl,
    (C2_generatePassword_each_class sampleConfig (fun _ => 0) 8 0 _ 15
      rfl sampleConfig_run).2.2.1⟩

theorem C10_generatePassword_chars_in_union_witness :
    generatePassword sampleConfig (fun _ => 0) 8 0 =
      .ok ['0', 'a', 'a', 'a', 'a', 'a', 'a', 'a'] 15 ∧
    '|' ∉ (['0', 'a', 'a', 'a', 'a', 'a', 'a', 'a'] : List Char) :=
  ⟨sampleConfig_run,
    (C10_generatePassword_chars_in_union sampleConfig (fun _ => 0) 8 0 _ 15
      sampleConfig_run).2.1⟩

/-! ## Passphrase generation (passphrase module and
src/core/validation.ts) -/

/-- The closed `'none' | 'first' | 'random'` capitalization variant. -/
inductive CapitalizationMode where
  | none
  | first
  | random
  deriving DecidableEq, Repr

structure PartialPassphraseOptions where
  wordCount : Option ℚ
  separator : Option String
  capitalization : Option CapitalizationMode
  addDigit : Option Bool
  addSymbol : Option Bool
  deriving DecidableEq, Repr

structure NormalizedPassphraseOptions where
  wordCount : Nat
  separator : String
  capitalization : CapitalizationMode
  addDigit : Bool
  addSymbol : Bool
  deriving DecidableEq, Repr

/-- `ValidationResult` of src/core/types.ts. -/
structure ValidationResult where
  valid : Bool
  errors : List String
  deriving DecidableEq, Repr

def PASSPHRASE_WORD_COUNT_MIN : Nat := 3
def PASSPHRASE_WORD_COUNT_MAX : Nat := 10
def DEFAULT_PASSPHRASE_WORD_COUNT : ℚ := 5

/-- Shallow embedding of `validatePassphraseOptions`
(src/core/validation.ts). -/
def validatePassphraseOptions (o : PartialPassphraseOptions) :
    ValidationResult :=
  let wordCount := o.wordCount.getD DEFAULT_PASSPHRASE_WORD_COUNT
  let errors : List String :=
    if ¬ wordCount.isInt = true then ["Word count must be an integer"]
    else if wordCount < ((PASSPHRASE_WORD_COUNT_MIN : ℕ) : ℚ) ∨
        ((PASSPHRASE_WORD_COUNT_MAX : ℕ) : ℚ) < wordCount then
      ["Word count must be between 3 and 10"]
    else []
  { valid := errors.isEmpty, errors := errors }

/-- Modelled from the spec: `normalizePassphraseOptions` is part of the
core module API but its defining source is missing (only its tests and its
caller `generatePassphrase` are present); per the spec it resolves the
defaults (separator "-", capitalization none, digits/symbol false) and
rounds and clamps wordCount into [3,10]. -/
def normalizePassphraseOptions (o : PartialPassphraseOptions) :
    NormalizedPassphraseOptions :=
  { wordCount := (max (PASSPHRASE_WORD_COUNT_MIN : ℤ)
      (min (PASSPHRASE_WORD_COUNT_MAX : ℤ)
        (jsRound (o.wordCount.getD DEFAULT_PASSPHRASE_WORD_COUNT)))).toNat
    separator := o.separator.getD "-"
    capitalization := o.capitalization.getD CapitalizationMode.none
    addDigit := o.addDigit.getD false
    addSymbol := o.addSymbol.getD false }

/-- `word.charAt(0).toUpperCase() + word.slice(1)` (on ASCII words). -/
def capitalizeWord (w : String) : String :=
  match w.toList with
  | [] => ""
  | c :: rest => String.mk (c.toUpper :: rest)

/-- The `for (let i = 0; i < wordCount; i++)` word-drawing loop of
`generatePassphrase`. -/
def drawWords (s : Nat → Nat) (fuel : Nat) (wl : List String) :
    Nat → List String → Nat → Option (List String × Nat)
  | 0, acc, pos => some (acc, pos)
  | m + 1, acc, pos =>
    match uniformRandomIndex s fuel pos wl.length with
    | .ok idx p => drawWords s fuel wl m (acc ++ [wl.getD idx ""]) p
    | _ => none

/-- Result of `generatePassphrase`. -/
inductive PassphraseResult where
  | ok (phrase : String) (pos : Nat)
  | invalidConfiguration (errors : List String)
  | outOfFuel
  deriving DecidableEq, Repr

/-- Shallow embedding of `generatePassphrase` (passphrase module of the
sources). The word list `wl` is a parameter: the `WORDLIST` constant's
defining module is not among the sources (modelled from the spec: a fixed,
immutable list of lowercase words). -/
def generatePassphrase (wl : List String) (o : PartialPassphraseOptions)
    (s : Nat → Nat) (fuel pos : Nat) : PassphraseResult :=
  let validation := validatePassphraseOptions o
  if validation.valid = false then .invalidConfiguration validation.errors
  else
    let normalized := normalizePassphraseOptions o
    match drawWords s fuel wl normalized.wordCount [] pos with
    | none => .outOfFuel
    | some (words, p1) =>
      match (match normalized.capitalization with
        | CapitalizationMode.none => some (words, p1)
        | CapitalizationMode.first => some (words.map capitalizeWord, p1)
        | CapitalizationMode.random =>
          match uniformRandomIndex s fuel p1 words.length with
          | .ok ri p2 =>
            some (words.set ri (capitalizeWord (words.getD ri "")), p2)
          | _ => none) with
      | none => .outOfFuel
      | some (words2, p2) =>
        let phrase := String.intercalate normalized.separator words2
        match (if normalized.addDigit then
            match uniformRandomIndex s fuel p2 DIGIT.length with
            | .ok d1 p3 =>
              match uniformRandomIndex s fuel p3 DIGIT.length with
              | .ok d2 p4 =>
                some ((phrase.push (DIGIT.getD d1 ' ')).push (DIGIT.getD d2 ' '), p4)
              | _ => none
            | _ => none
          else some (phrase, p2)) with
        | none => .outOfFuel
        | some (phrase2, p4) =>
          match (if normalized.addSymbol then
              match uniformRandomIndex s fuel p4 SYMBOL.length with
              | .ok si p5 => some (phrase2.push (SYMBOL.getD si ' '), p5)
              | _ => none
            else some (phrase2, p4)) with
          | none => .outOfFuel
          | some (phrase3, p5) => .ok phrase3 p5

theorem Rat_isInt_natCast (w : Nat) : ((w : ℚ)).isInt = true := by
  unfold Rat.isInt
  simp [Rat.den_natCast]

theorem validatePassphraseOptions_valid_iff (o : PartialPassphraseOptions) :
    (validatePassphraseOptions o).valid = true ↔
      ((o.wordCount.getD DEFAULT_PASSPHRASE_WORD_COUNT).isInt = true ∧
       ((PASSPHRASE_WORD_COUNT_MIN : ℕ) : ℚ) ≤
         o.wordCount.getD DEFAULT_PASSPHRASE_WORD_COUNT ∧
       o.wordCount.getD DEFAULT_PASSPHRASE_WORD_COUNT ≤
         ((PASSPHRASE_WORD_COUNT_MAX : ℕ) : ℚ)) := by
  unfold validatePassphraseOptions
  dsimp only
  by_cases h1 : (o.wordCount.getD DEFAULT_PASSPHRASE_WORD_COUNT).isInt = true
  · rw [if_neg (not_not_intro h1)]
    by_cases h2 : o.wordCount.getD DEFAULT_PASSPHRASE_WORD_COUNT <
        ((PASSPHRASE_WORD_COUNT_MIN : ℕ) : ℚ) ∨
        ((PASSPHRASE_WORD_COUNT_MAX : ℕ) : ℚ) <
          o.wordCount.getD DEFAULT_PASSPHRASE_WORD_COUNT
    · rw [if_pos h2]
      simp only [List.isEmpty_cons]
      constructor
      · intro hcontra; exact absurd hcontra (by simp)
      · intro ⟨_, hlo, hhi⟩
        rcases h2 with hl | hr
        · exact absurd hlo (not_le.mpr hl)
        · exact absurd hhi (not_le.mpr hr)
    · rw [if_neg h2]
      rw [not_or] at h2
      simp only [List.isEmpty_nil, true_iff]
      exact ⟨h1, not_lt.mp h2.1, not_lt.mp h2.2⟩
  · rw [if_pos h1]
    simp only [List.isEmpty_cons]
    constructor
    · intro hcontra; exact absurd hcontra (by simp)
    · intro ⟨hc, _⟩; exact absurd hc h1

theorem generatePassphrase_invalid_of (wl : List String)
    (o : PartialPassphraseOptions) (s : Nat → Nat) (fuel pos : Nat)
    (h : (validatePassphraseOptions o).valid = false) :
    generatePassphrase wl o s fuel pos =
      .invalidConfiguration (validatePassphraseOptions o).errors := by
  unfold generatePassphrase
  rw [if_pos h]

theorem generatePassphrase_valid_not_invalid (wl : List String)
    (o : PartialPassphraseOptions) (s : Nat → Nat) (fuel pos : Nat)
    (hvalid : (validatePassphraseOptions o).valid = true) :
    ∀ errs, generatePassphrase wl o s fuel pos ≠ .invalidConfiguration errs := by
  intro errs
  unfold generatePassphrase
  rw [if_neg (by simp [hvalid])]
  dsimp only
  repeat' split
  all_goals simp

theorem validationResult_invalid_errors_ne_nil (o : PartialPassphraseOptions)
    (h : (validatePassphraseOptions o).valid = false) :
    (validatePassphraseOptions o).errors ≠ [] := by
  intro hcontra
  unfold validatePassphraseOptions at h hcontra
  dsimp only at h hcontra
  rw [hcontra] at h
  simp at h

/-- C5: `generatePassphrase` fails with InvalidConfiguration exactly when the
(defaulted) wordCount is not an integer in [3,10]; the failure carries the
non-empty validation error list and is decided before any randomness is
consumed — an invalid configuration produces the same failure for every
random source, fuel and position. -/
theorem C5_generatePassphrase_invalid_config (wl : List String)
    (o : PartialPassphraseOptions) (s : Nat → Nat) (fuel pos : Nat) :
    ((∃ errs, generatePassphrase wl o s fuel pos = .invalidConfiguration errs) ↔
      ¬ ((o.wordCount.getD DEFAULT_PASSPHRASE_WORD_COUNT).isInt = true ∧
         ((PASSPHRASE_WORD_COUNT_MIN : ℕ) : ℚ) ≤
           o.wordCount.getD DEFAULT_PASSPHRASE_WORD_COUNT ∧
         o.wordCount.getD DEFAULT_PASSPHRASE_WORD_COUNT ≤
           ((PASSPHRASE_WORD_COUNT_MAX : ℕ) : ℚ))) ∧
    (∀ errs, generatePassphrase wl o s fuel pos = .invalidConfiguration errs →
      errs = (validatePassphraseOptions o).errors ∧ errs ≠ []) ∧
    ((validatePassphraseOptions o).valid = false →
      ∀ (s' : Nat → Nat) (fuel' pos' : Nat),
        generatePassphrase wl o s' fuel' pos' =
          .invalidConfiguration (validatePassphraseOptions o).errors) := by
  refine ⟨⟨?_, ?_⟩, ?_, fun hinv s' fuel' pos' =>
    generatePassphrase_invalid_of wl o s' fuel' pos' hinv⟩
  · rintro ⟨errs, herrs⟩ hcond
    exact generatePassphrase_valid_not_invalid wl o s fuel pos
      ((validatePassphraseOptions_valid_iff o).mpr hcond) errs herrs
  · intro hcond
    have hinv : (validatePassphraseOptions o).valid = false := by
      cases hv : (validatePassphraseOptions o).valid
      · rfl
      · exact absurd ((validatePassphraseOptions_valid_iff o).mp hv) hcond
    exact ⟨_, generatePassphrase_invalid_of wl o s fuel pos hinv⟩
  · intro errs herrs
    have hinv : (validatePassphraseOptions o).valid = false := by
      cases hv : (validatePassphraseOptions o).valid
      · rfl
      · exact absurd herrs
          (generatePassphrase_valid_not_invalid wl o s fuel pos hv errs)
    have := generatePassphrase_invalid_of wl o s fuel pos hinv
    rw [this] at herrs
    simp only [PassphraseResult.invalidConfiguration.injEq] at herrs
    exact ⟨herrs.symm ▸ rfl, by
      rw [← herrs] at *
      exact herrs ▸ validationResult_invalid_errors_ne_nil o hinv⟩

theorem drawWords_spec (s : Nat → Nat) (fuel : Nat) (wl : List String) :
    ∀ m acc pos out p, drawWords s fuel wl m acc pos = some (out, p) →
      out.length = acc.length + m ∧ (∀ x ∈ out, x ∈ acc ∨ x ∈ wl) := by
  intro m
  induction m with
  | zero =>
    intro acc pos out p h
    simp only [drawWords, Option.some.injEq, Prod.mk.injEq] at h
    obtain ⟨h1, _⟩ := h
    subst h1
    exact ⟨by omega, fun x hx => Or.inl hx⟩
  | succ m ih =>
    intro acc pos out p h
    rw [drawWords] at h
    cases heq : uniformRandomIndex s fuel pos wl.length with
    | ok idx p' =>
      rw [heq] at h
      have hpos := uniformRandomIndex_ok_pos s fuel pos _ idx p' heq
      have hidx : idx < wl.length :=
        uniformRandomIndex_lt s fuel pos _ idx p' hpos heq
      obtain ⟨ihl, ihm⟩ := ih (acc ++ [wl.getD idx ""]) p' out p h
      refine ⟨by simp at ihl; omega, ?_⟩
      intro x hx
      rcases ihm x hx with hin | hin
      · rcases List.mem_append.mp hin with h' | h'
        · exact Or.inl h'
        · simp only [List.mem_singleton] at h'
          subst h'
          exact Or.inr (getD_mem wl idx "" hidx)
      · exact Or.inr hin
    | invalidArg => rw [heq] at h; exact absurd h (by simp)
    | outOfFuel => rw [heq] at h; exact absurd h (by simp)

/-- C4 (amended): for a configuration with an integer wordCount in [3,10],
appendDigits and appendSymbol off, and capitalization resolving to `none`,
a successful `generatePassphrase` returns exactly wordCount words, each an
element of the word list, joined by the normalized separator (with no
separator at either end, being an intercalation). -/
theorem C4_generatePassphrase_words (wl : List String)
    (o : PartialPassphraseOptions) (s : Nat → Nat) (fuel pos : Nat) (w : Nat)
    (hwc : o.wordCount = some ((w : ℕ) : ℚ)) (h3 : 3 ≤ w) (h10 : w ≤ 10)
    (hd : o.addDigit.getD false = false)
    (hsym : o.addSymbol.getD false = false)
    (hcap : o.capitalization.getD CapitalizationMode.none =
      CapitalizationMode.none)
    (ph : String) (p : Nat)
    (h : generatePassphrase wl o s fuel pos = .ok ph p) :
    (normalizePassphraseOptions o).wordCount = w ∧
    ∃ ws : List String, ws.length = w ∧ (∀ x ∈ ws, x ∈ wl) ∧
      ph = String.intercalate (o.separator.getD "-") ws := by
  have hnwc : (normalizePassphraseOptions o).wordCount = w := by
    unfold normalizePassphraseOptions
    rw [hwc]
    simp only [Option.getD_some, jsRound_natCast,
      PASSPHRASE_WORD_COUNT_MIN, PASSPHRASE_WORD_COUNT_MAX]
    omega
  have hncap : (normalizePassphraseOptions o).capitalization =
      CapitalizationMode.none := hcap
  have hnad : (normalizePassphraseOptions o).addDigit = false := hd
  have hnas : (normalizePassphraseOptions o).addSymbol = false := hsym
  have hnsep : (normalizePassphraseOptions o).separator =
      o.separator.getD "-" := rfl
  have hvalid : (validatePassphraseOptions o).valid = true := by
    rw [validatePassphraseOptions_valid_iff, hwc]
    refine ⟨by simp [Rat_isInt_natCast], ?_, ?_⟩
    · simp only [Option.getD_some, PASSPHRASE_WORD_COUNT_MIN]
      exact_mod_cast h3
    · simp only [Option.getD_some, PASSPHRASE_WORD_COUNT_MAX]
      exact_mod_cast h10
  refine ⟨hnwc, ?_⟩
  unfold generatePassphrase at h
  rw [if_neg (by simp [hvalid])] at h
  dsimp only at h
  rw [hnwc, hncap, hnad, hnas, hnsep] at h
  cases h1 : drawWords s fuel wl w [] pos with
  | none => rw [h1] at h; exact absurd h (by simp)
  | some wp =>
    obtain ⟨words, p1⟩ := wp
    rw [h1] at h
    dsimp only at h
    rw [if_neg (by simp)] at h
    dsimp only at h
    rw [if_neg (by simp)] at h
    dsimp only at h
    simp only [PassphraseResult.ok.injEq] at h
    obtain ⟨hph, _⟩ := h
    obtain ⟨hlen, hmem⟩ := drawWords_spec s fuel wl w [] pos words p1 h1
    refine ⟨words, by simpa using hlen, ?_, hph.symm⟩
    intro x hx
    rcases hmem x hx with hin | hin
    · exact absurd hin (List.not_mem_nil x)
    · exact hin

/-- C4 counterexample: the claim quantifies over every configuration with
appendDigits and appendSymbol off, but under capitalization 'first' the
returned words are capitalized and — the word list being lowercase — are
not elements of the word list. -/
theorem C4_generatePassphrase_words_cex :
    generatePassphrase ["alpha"]
      ⟨some ((3 : ℕ) : ℚ), some "_", some CapitalizationMode.first,
        some false, some false⟩ (fun _ => 0) 4 0 =
      .ok "Alpha_Alpha_Alpha" 0 ∧
    ¬ ∃ ws : List String, ws.length = 3 ∧
      (∀ x ∈ ws, x ∈ (["alpha"] : List String)) ∧
      "Alpha_Alpha_Alpha" = String.intercalate "_" ws := by
  constructor
  · have hnorm : normalizePassphraseOptions
        ⟨some ((3 : ℕ) : ℚ), some "_", some CapitalizationMode.first,
          some false, some false⟩ =
        ⟨3, "_", CapitalizationMode.first, false, false⟩ := by
      unfold normalizePassphraseOptions
      simp only [Option.getD_some, jsRound_natCast,
        PASSPHRASE_WORD_COUNT_MIN, PASSPHRASE_WORD_COUNT_MAX]
      decide
    unfold generatePassphrase
    rw [hnorm]
    rw [if_neg (by decide)]
    decide
  · rintro ⟨ws, hlen, hmem, heq⟩
    rcases ws with _ | ⟨a, _ | ⟨b, _ | ⟨c, _ | ⟨d, tl⟩⟩⟩⟩ <;> simp at hlen
    have ha := hmem a (by simp)
    have hb := hmem b (by simp)
    have hc := hmem c (by simp)
    simp only [List.mem_singleton] at ha hb hc
    subst ha; subst hb; subst hc
    exact absurd heq (by decide)

theorem C4_generatePassphrase_words_witness :
    generatePassphrase ["alpha", "beta", "gamma", "delta"]
      ⟨some ((3 : ℕ) : ℚ), some "_", none, none, none⟩ (fun _ => 0) 4 0 =
      .ok "alpha_alpha_alpha" 3 ∧
    ((normalizePassphraseOptions
        ⟨some ((3 : ℕ) : ℚ), some "_", none, none, none⟩).wordCount = 3 ∧
      ∃ ws : List String, ws.length = 3 ∧
        (∀ x ∈ ws, x ∈ (["alpha", "beta", "gamma", "delta"] : List String)) ∧
        "alpha_alpha_alpha" =
          String.intercalate ((some "_").getD "-") ws) := by
  have hnorm : normalizePassphraseOptions
      ⟨some ((3 : ℕ) : ℚ), some "_", none, none, none⟩ =
      ⟨3, "_", CapitalizationMode.none, false, false⟩ := by
    unfold normalizePassphraseOptions
    simp only [Option.getD_some, jsRound_natCast,
      PASSPHRASE_WORD_COUNT_MIN, PASSPHRASE_WORD_COUNT_MAX]
    decide
  have hrun : generatePassphrase ["alpha", "beta", "gamma", "delta"]
      ⟨some ((3 : ℕ) : ℚ), some "_", none, none, none⟩ (fun _ => 0) 4 0 =
      .ok "alpha_alpha_alpha" 3 := by
    unfold generatePassphrase
    rw [hnorm]
    rw [if_neg (by decide)]
    decide
  exact ⟨hrun, C4_generatePassphrase_words ["alpha", "beta", "gamma", "delta"]
    ⟨some ((3 : ℕ) : ℚ), some "_", none, none, none⟩ (fun _ => 0) 4 0 3
    rfl (by omega) (by omega) rfl rfl rfl "alpha_alpha_alpha" 3 hrun⟩

theorem C5_generatePassphrase_invalid_config_witness :
    ∃ errs, generatePassphrase ["alpha"]
      ⟨some ((2 : ℕ) : ℚ), none, none, none, none⟩ (fun _ => 0) 1 0 =
      .invalidConfiguration errs :=
  (C5_generatePassphrase_invalid_config ["alpha"]
    ⟨some ((2 : ℕ) : ℚ), none, none, none, none⟩ (fun _ => 0) 1 0).1.mpr
    (by
      rintro ⟨_, hlo, _⟩
      simp only [Option.getD_some, PASSPHRASE_WORD_COUNT_MIN] at hlo
      have : (3 : ℕ) ≤ (2 : ℕ) := by exact_mod_cast hlo
      omega)

end PwGen
